import Mathlib

/-!
Verification development for the personal calendar manager
(`without_ui_colors.py`).

The program stores events in a flat text file, one line per event, in the
form `YYYY-MM-DD | description`.  We embed the program shallowly:

* Python strings are modelled as `Str := List Char`; the Python string
  operations used by the program (`strip`, `startswith`, `split(sep, 1)`,
  substring membership `in`, `split('-')`) are defined below with their
  Python semantics.
* The backing file is modelled as the list of its lines exactly as
  `readlines()` would return them (each appended line carries its trailing
  newline character).
* `dateutil.parser.parse(s, fuzzy=False)` is a third-party library; it is
  modelled on the inputs this program feeds it: dash-separated numeric
  year-month-day tokens with a four-digit year (permissive about zero
  padding of month and day).  Its documented raising behaviour has two
  error paths: a parse failure raises `ParserError`, a subclass of
  `ValueError`, while a parsed date whose year exceeds the largest valid
  C integer makes the `datetime` construction raise `OverflowError`.
* Fallible operations return `Except PyError _`; an uncaught Python
  exception is an `Except.error`.
-/

/-- A Python string: its list of characters. -/
abbrev Str := List Char

/-- Characters stripped by Python `str.strip()` (ASCII whitespace). -/
def isSpace (c : Char) : Bool :=
  c == ' ' || c == '\t' || c == '\n' || c == '\x0d' || c == '\x0b' || c == '\x0c'

/-- ASCII decimal digit test. -/
def isDigitC (c : Char) : Bool :=
  48 ≤ c.toNat && c.toNat ≤ 57

/-- The decimal digit character for `n` (defined for `n ≤ 9`). -/
def digitChar (n : Nat) : Char :=
  if n = 0 then '0' else if n = 1 then '1' else if n = 2 then '2'
  else if n = 3 then '3' else if n = 4 then '4' else if n = 5 then '5'
  else if n = 6 then '6' else if n = 7 then '7' else if n = 8 then '8'
  else '9'

/-- Numeric value of a decimal digit character. -/
def digitVal (c : Char) : Nat := c.toNat - 48

/-- Value of a string of decimal digits, as Python `int()` computes it. -/
def parseNat (s : Str) : Nat := s.foldl (fun a c => a * 10 + digitVal c) 0

/-- Python `str.lstrip()`. -/
def lstrip : Str → Str
  | [] => []
  | c :: cs => if isSpace c then lstrip cs else c :: cs

/-- Python `str.rstrip()`. -/
def rstrip : Str → Str
  | [] => []
  | c :: cs =>
    let r := rstrip cs
    if r.isEmpty then (if isSpace c then [] else [c]) else c :: r

/-- Python `str.strip()`. -/
def strip (s : Str) : Str := rstrip (lstrip s)

/-- `isPre p s` : `p` is a leading segment of `s`. -/
def isPre : Str → Str → Bool
  | [], _ => true
  | _ :: _, [] => false
  | p :: ps, c :: cs => p == c && isPre ps cs

/-- Python `s.startswith(p)`. -/
def startswith (s p : Str) : Bool := isPre p s

/-- First occurrence of `sep` in a string: `some (before, after)` when `sep`
occurs, `none` otherwise.  This is the engine behind Python
`s.split(sep, 1)` and the substring test `sep in s`. -/
def findSplit (sep : Str) : Str → Option (Str × Str)
  | [] => if isPre sep [] then some ([], []) else none
  | c :: cs =>
    if isPre sep (c :: cs) then some ([], (c :: cs).drop sep.length)
    else (findSplit sep cs).map (fun p => (c :: p.1, p.2))

/-- Python `needle in hay` (substring membership). -/
def contains_sub (hay needle : Str) : Bool := (findSplit needle hay).isSome

/-- Python `s.split(sep, 1)`. -/
def split1 (s sep : Str) : List Str :=
  match findSplit sep s with
  | none => [s]
  | some (a, b) => [a, b]

/-- Python `s.split(c)` for a single-character separator. -/
def splitChar (sep : Char) : Str → List Str
  | [] => [[]]
  | c :: cs =>
    if c == sep then [] :: splitChar sep cs
    else
      match splitChar sep cs with
      | [] => [[c]]
      | t :: ts => (c :: t) :: ts

/-- A parsed calendar date (`datetime` restricted to its date fields). -/
structure Date where
  year : Nat
  month : Nat
  day : Nat
deriving DecidableEq, Repr

/-- Gregorian leap-year test. -/
def isLeapB (y : Nat) : Bool := y % 4 == 0 && (y % 100 != 0 || y % 400 == 0)

/-- Number of days in month `m` of year `y`. -/
def daysInMonth (y m : Nat) : Nat :=
  if m == 2 then (if isLeapB y then 29 else 28)
  else if m == 4 || m == 6 || m == 9 || m == 11 then 30
  else 31

/-- A genuinely valid calendar date within `datetime`'s year range. -/
def validDateB (d : Date) : Bool :=
  1 ≤ d.year && d.year ≤ 9999 && 1 ≤ d.month && d.month ≤ 12 &&
    1 ≤ d.day && d.day ≤ daysInMonth d.year d.month

/-- Two-digit zero-padded decimal rendering (`%m`, `%d`). -/
def pad2 (n : Nat) : Str := [digitChar (n / 10), digitChar (n % 10)]

/-- Four-digit zero-padded decimal rendering (`%Y` for years up to 9999). -/
def pad4 (n : Nat) : Str :=
  [digitChar (n / 1000), digitChar (n / 100 % 10), digitChar (n / 10 % 10),
    digitChar (n % 10)]

/-- `d.strftime("%Y-%m-%d")`. -/
def fmtDate (d : Date) : Str :=
  pad4 d.year ++ '-' :: (pad2 d.month ++ '-' :: pad2 d.day)

/-- Model of `dateutil.parser.parse(s, fuzzy=False)` restricted to the
shape of inputs this program distinguishes: three dash-separated numeric
tokens, a four-digit year first, month and day of one or two digits
(dateutil accepts the non-zero-padded forms), checked to form a real
calendar date.  Any other input fails to parse. -/
def dateutil_parse (s : Str) : Option Date :=
  match splitChar '-' s with
  | [ys, ms, ds] =>
    if ys.length == 4 && ys.all isDigitC &&
        decide (1 ≤ ms.length) && ms.length ≤ 2 && ms.all isDigitC &&
        decide (1 ≤ ds.length) && ds.length ≤ 2 && ds.all isDigitC then
      let d : Date := ⟨parseNat ys, parseNat ms, parseNat ds⟩
      if validDateB d then some d else none
    else none
  | _ => none

/-- Python exceptions relevant to this program. -/
inductive PyError where
  | valueError
  | overflowError
  | ioError
deriving DecidableEq, Repr

/-- Inputs on which the modelled parser raises `OverflowError`: a
dash-separated numeric year-month-day shape whose year token parses but
exceeds the largest valid C integer (2^31 - 1 on this platform), so that
dateutil reaches the `datetime` construction and the year conversion
overflows — e.g. `"9999999999-01-01"`. -/
def overflowInput (s : Str) : Bool :=
  match splitChar '-' s with
  | [ys, ms, ds] =>
    !ys.isEmpty && ys.all isDigitC &&
      decide (1 ≤ ms.length) && ms.length ≤ 2 && ms.all isDigitC &&
      decide (1 ≤ ds.length) && ds.length ≤ 2 && ds.all isDigitC &&
      decide (2147483647 < parseNat ys)
  | _ => false

/-- Model of the raising behaviour of `dateutil.parser.parse`, with the
two error paths its documentation lists: a year token beyond the largest
valid C integer raises `OverflowError`; any other failure raises
`ParserError`, a subclass of `ValueError`. -/
def dateutil_parse_exc (s : Str) : Except PyError Date :=
  if overflowInput s then .error .overflowError
  else
    match dateutil_parse s with
    | some d => .ok d
    | none => .error .valueError

/-- `CalendarManager.validate_date`: parse, then require the canonical
reformat to equal the input exactly; `ValueError` means invalid. -/
def validate_date (s : Str) : Bool :=
  match dateutil_parse s with
  | some d => decide (fmtDate d = s)
  | none => false

/-- `CalendarManager.validate_date` with the exception flow made explicit:
the `try` block computes the round-trip comparison, the `except ValueError`
arm returns `False`, and any other exception would propagate. -/
def validate_date_exc (s : Str) : Except PyError Bool :=
  match dateutil_parse_exc s with
  | .ok d => .ok (decide (fmtDate d = s))
  | .error .valueError => .ok false
  | .error e => .error e

/-- One round of `CalendarManager.get_valid_date`: the raw input line is
stripped, then accepted exactly when `validate_date` passes (otherwise the
loop reprompts, modelled as `none`). -/
def get_valid_date_step (raw : Str) : Option Str :=
  let s := strip raw
  if validate_date s then some s else none

/-- `calendar.month_name[m]` for `m` in 1..12. -/
def monthName : Nat → String
  | 1 => "January" | 2 => "February" | 3 => "March" | 4 => "April"
  | 5 => "May" | 6 => "June" | 7 => "July" | 8 => "August"
  | 9 => "September" | 10 => "October" | 11 => "November" | 12 => "December"
  | _ => ""

/-- Days in all years before year `y` in the proleptic Gregorian calendar
(as in `datetime.date.toordinal`). -/
def daysBeforeYear (y : Nat) : Nat :=
  365 * (y - 1) + (y - 1) / 4 - (y - 1) / 100 + (y - 1) / 400

/-- Days in year `y` before month `m`. -/
def daysBeforeMonth (y : Nat) : Nat → Nat
  | 0 => 0
  | m + 1 => daysBeforeMonth y m + (if m == 0 then 0 else daysInMonth y m)

/-- Weekday of the first day of month `m` of year `y`, Monday = 0
(`calendar.weekday(y, m, 1)`). -/
def firstWeekday (y m : Nat) : Nat :=
  (daysBeforeYear y + daysBeforeMonth y m) % 7

/-- Chop a cell list into rows of seven (fuel-indexed for termination). -/
def chunksOf7 : Nat → List Nat → List (List Nat)
  | 0, _ => []
  | _, [] => []
  | fuel + 1, l => l.take 7 :: chunksOf7 fuel (l.drop 7)

/-- `calendar.monthcalendar(y, m)` with the default Monday first weekday:
each week is a list of seven day numbers, `0` marking cells that belong to
an adjacent month. -/
def monthcalendar (y m : Nat) : List (List Nat) :=
  let w := firstWeekday y m
  let n := daysInMonth y m
  let cells := List.replicate w 0 ++ (List.range n).map (· + 1) ++
    List.replicate ((7 - (w + n) % 7) % 7) 0
  chunksOf7 cells.length cells

/-- Outcome of `CalendarManager.display_calendar` once the year and month
have been read as integers. -/
inductive DisplayOutcome where
  | monthRangeError
  | valueErrorCaught
  | rendered (header : String) (year : Int) (grid : List (List Nat))
deriving DecidableEq, Repr

/-- `CalendarManager.display_calendar` after `int()` succeeded on both
inputs: a month outside 1..12 is reported and nothing is rendered;
`calendar.monthcalendar` raises `ValueError` for years outside
`datetime`'s range 1..9999, which the surrounding `except ValueError`
catches; otherwise the header and the month grid are produced. -/
def display_calendar (year month : Int) : DisplayOutcome :=
  if month < 1 || month > 12 then .monthRangeError
  else if year < 1 || year > 9999 then .valueErrorCaught
  else .rendered (monthName month.toNat) year (monthcalendar year.toNat month.toNat)

/-- The record delimiter, the literal `" | "`. -/
def delim : Str := [' ', '|', ' ']

/-- The line written by `add_event`: `f"{date_str} | {description}\n"`. -/
def eventLine (date desc : Str) : Str := date ++ delim ++ desc ++ ['\n']

/-- The file mutation of `CalendarManager.add_event`: append one line. -/
def add_event (file : List Str) (date desc : Str) : List Str :=
  file ++ [eventLine date desc]

/-- Outcome of the `add_event` interaction. -/
inductive AddOutcome where
  | emptyDescription
  | added (file : List Str)
deriving DecidableEq, Repr

/-- `CalendarManager.add_event` at the controller level: the description
input is stripped; an empty result aborts the operation, otherwise the
record is appended (`date` has already passed `get_valid_date`). -/
def add_event_ctrl (file : List Str) (date rawDesc : Str) : AddOutcome :=
  let description := strip rawDesc
  if description.isEmpty then .emptyDescription
  else .added (add_event file date description)

/-- `CalendarManager.view_events` (`findByDate`): scan the lines in order;
a line starting with the date is stripped and split on the first `" | "`,
and its description is yielded.  A matching line with no delimiter makes
the two-variable unpacking of a one-element list raise `ValueError`, which
the operation does not catch. -/
def view_events : List Str → Str → Except PyError (List Str)
  | [], _ => .ok []
  | line :: rest, date =>
    if startswith line date then
      match findSplit delim (strip line) with
      | some p =>
        match view_events rest date with
        | .ok ds => .ok (p.2 :: ds)
        | .error e => .error e
      | none => .error .valueError
    else view_events rest date

/-- The deletion predicate of `CalendarManager.delete_event`:
`line.startswith(date_str) and description in line`. -/
def matchesDelete (date desc line : Str) : Bool :=
  startswith line date && contains_sub line desc

/-- The file rewrite of `CalendarManager.delete_event`: keep every line
that does not match, in order; the flag records whether any line matched
(the code reports "deleted" or "no matching event found" from it). -/
def delete_event : List Str → Str → Str → List Str × Bool
  | [], _, _ => ([], false)
  | line :: rest, date, desc =>
    let r := delete_event rest date desc
    if matchesDelete date desc line then (r.1, true)
    else (line :: r.1, r.2)

/-- The persistence invariant: a line consists of a `validate_date`-valid
ten-character date token, the delimiter, and a non-empty newline-free
description, terminated by a newline. -/
def goodLine (l : Str) : Prop :=
  ∃ d desc, validate_date d = true ∧ d.length = 10 ∧ desc ≠ [] ∧
    '\n' ∉ desc ∧ l = d ++ delim ++ desc ++ ['\n']

/-- The character list of a Lean string literal (for concrete inputs). -/
def strLit (s : String) : Str := s.data

lemma isSpace_digitChar (k : Nat) : isSpace (digitChar k) = false := by
  simp only [digitChar]; split_ifs <;> decide

lemma isDigitC_digitChar (k : Nat) : isDigitC (digitChar k) = true := by
  simp only [digitChar]; split_ifs <;> decide

lemma digitChar_ne_dash (k : Nat) : digitChar k ≠ '-' := by
  simp only [digitChar]; split_ifs <;> decide

lemma digitVal_digitChar (k : Nat) (h : k < 10) : digitVal (digitChar k) = k := by
  interval_cases k <;> decide

lemma isDigitC_props (c : Char) (h : isDigitC c = true) :
    isSpace c = false ∧ c ≠ ' ' ∧ c ≠ '\n' := by
  refine ⟨?_, ?_, ?_⟩
  · by_contra hs
    simp only [Bool.not_eq_false] at hs
    simp only [isSpace, Bool.or_eq_true, beq_iff_eq] at hs
    rcases hs with ((((rfl | rfl) | rfl) | rfl) | rfl) | rfl <;> simp [isDigitC] at h
  · rintro rfl; simp [isDigitC] at h
  · rintro rfl; simp [isDigitC] at h

lemma isPre_refl_append (p t : Str) : isPre p (p ++ t) = true := by
  induction p with
  | nil => rfl
  | cons c cs ih => simp [isPre, ih]

lemma isPre_decomp {p s : Str} (h : isPre p s = true) : ∃ t, s = p ++ t := by
  induction p generalizing s with
  | nil => exact ⟨s, rfl⟩
  | cons c cs ih =>
    cases s with
    | nil => simp [isPre] at h
    | cons a as =>
      simp only [isPre, Bool.and_eq_true, beq_iff_eq] at h
      obtain ⟨rfl, h2⟩ := h
      obtain ⟨t, rfl⟩ := ih h2
      exact ⟨t, rfl⟩

lemma isPre_length_eq {p q t : Str} (hl : p.length = q.length)
    (h : isPre p (q ++ t) = true) : p = q := by
  induction p generalizing q with
  | nil => cases q with
    | nil => rfl
    | cons b bs => simp at hl
  | cons a as ih =>
    cases q with
    | nil => simp at hl
    | cons b bs =>
      simp only [List.cons_append, isPre, Bool.and_eq_true, beq_iff_eq] at h
      simp only [List.length_cons, Nat.succ_inj] at hl
      obtain ⟨rfl, h2⟩ := h
      rw [ih hl h2]

lemma findSplit_pos {sep s : Str} (h : isPre sep s = true) :
    findSplit sep s = some ([], s.drop sep.length) := by
  cases s with
  | nil =>
    cases sep with
    | nil => rfl
    | cons x xs => simp [isPre] at h
  | cons c cs => simp [findSplit, h]

lemma findSplit_neg {sep : Str} {c : Char} {cs : Str}
    (h : isPre sep (c :: cs) = false) :
    findSplit sep (c :: cs) = (findSplit sep cs).map (fun p => (c :: p.1, p.2)) := by
  simp [findSplit, h]

lemma findSplit_some {sep s a b : Str} (h : findSplit sep s = some (a, b)) :
    s = a ++ sep ++ b := by
  induction s generalizing a b with
  | nil =>
    cases sep with
    | nil =>
      simp only [findSplit, isPre, if_true] at h
      injection h with h
      injection h with h1 h2
      simp [← h1, ← h2]
    | cons x xs => simp [findSplit, isPre] at h
  | cons c cs ih =>
    by_cases hp : isPre sep (c :: cs) = true
    · rw [findSplit_pos hp] at h
      injection h with h
      injection h with h1 h2
      obtain ⟨t, ht⟩ := isPre_decomp hp
      subst h1
      rw [ht, List.drop_left] at h2
      simp [ht, ← h2]
    · rw [Bool.not_eq_true] at hp
      rw [findSplit_neg hp, Option.map_eq_some'] at h
      obtain ⟨⟨a', b'⟩, hfs, hab⟩ := h
      injection hab with h1 h2
      subst h2
      rw [← h1]
      simp [ih hfs]

lemma findSplit_isPre_isSome {sep s : Str} (h : isPre sep s = true) :
    (findSplit sep s).isSome = true := by
  rw [findSplit_pos h]; rfl

lemma findSplit_isSome_append (sep a t : Str) :
    (findSplit sep (a ++ (sep ++ t))).isSome = true := by
  induction a with
  | nil =>
    simp only [List.nil_append]
    exact findSplit_isPre_isSome (isPre_refl_append sep t)
  | cons c cs ih =>
    by_cases hp : isPre sep (c :: (cs ++ (sep ++ t))) = true
    · simpa using findSplit_isPre_isSome hp
    · rw [Bool.not_eq_true] at hp
      rw [List.cons_append, findSplit_neg hp]
      cases hfs : findSplit sep (cs ++ (sep ++ t)) with
      | none => rw [hfs] at ih; exact absurd ih (by simp)
      | some p => simp

lemma findSplit_boundary {s0 : Char} {sep' : Str} (a t : Str)
    (ha : ∀ c ∈ a, c ≠ s0) :
    findSplit (s0 :: sep') (a ++ ((s0 :: sep') ++ t)) = some (a, t) := by
  induction a with
  | nil =>
    simp only [List.nil_append]
    rw [findSplit_pos (isPre_refl_append (s0 :: sep') t), List.drop_left]
  | cons c cs ih =>
    have hc : c ≠ s0 := ha c (List.mem_cons_self c cs)
    have hpre : isPre (s0 :: sep') (c :: (cs ++ ((s0 :: sep') ++ t))) = false := by
      simp only [isPre, Bool.and_eq_false_iff, beq_eq_false_iff_ne]
      exact Or.inl (fun h => hc h.symm)
    rw [List.cons_append, findSplit_neg hpre,
      ih (fun x hx => ha x (List.mem_cons_of_mem c hx))]
    rfl

lemma contains_sub_of_decomp {hay x : Str} (a b : Str) (h : hay = a ++ x ++ b) :
    contains_sub hay x = true := by
  subst h
  rw [contains_sub, List.append_assoc]
  exact findSplit_isSome_append x a b

lemma contains_sub_decomp {hay x : Str} (h : contains_sub hay x = true) :
    ∃ a b, hay = a ++ x ++ b := by
  rw [contains_sub, Option.isSome_iff_exists] at h
  obtain ⟨⟨a, b⟩, hab⟩ := h
  exact ⟨a, b, findSplit_some hab⟩

lemma lstrip_decomp (s : Str) : ∃ a, s = a ++ lstrip s ∧ ∀ c ∈ a, isSpace c = true := by
  induction s with
  | nil => exact ⟨[], rfl, by simp⟩
  | cons c cs ih =>
    by_cases hc : isSpace c = true
    · obtain ⟨a, ha, hsp⟩ := ih
      refine ⟨c :: a, ?_, ?_⟩
      · simp [lstrip, hc, ← ha]
      · intro x hx
        rcases List.mem_cons.mp hx with rfl | hx
        · exact hc
        · exact hsp x hx
    · rw [Bool.not_eq_true] at hc
      exact ⟨[], by simp [lstrip, hc], by simp⟩

lemma rstrip_decomp (s : Str) : ∃ b, s = rstrip s ++ b ∧ ∀ c ∈ b, isSpace c = true := by
  induction s with
  | nil => exact ⟨[], rfl, by simp⟩
  | cons c cs ih =>
    obtain ⟨b, hb, hsp⟩ := ih
    by_cases he : (rstrip cs).isEmpty = true
    · have hcs : rstrip cs = [] := by
        cases h : rstrip cs with
        | nil => rfl
        | cons x xs => rw [h] at he; simp [List.isEmpty] at he
      by_cases hc : isSpace c = true
      · refine ⟨c :: cs, ?_, ?_⟩
        · simp [rstrip, he, hc]
        · intro x hx
          rcases List.mem_cons.mp hx with rfl | hx
          · exact hc
          · rw [hcs] at hb; simp only [List.nil_append] at hb
            exact hsp x (hb ▸ hx)
      · rw [Bool.not_eq_true] at hc
        refine ⟨cs, ?_, ?_⟩
        · simp [rstrip, he, hc]
        · intro x hx
          rw [hcs] at hb; simp only [List.nil_append] at hb
          exact hsp x (hb ▸ hx)
    · rw [Bool.not_eq_true] at he
      refine ⟨b, ?_, hsp⟩
      simp only [rstrip, he]
      simp [← hb]

lemma strip_decomp (s : Str) :
    ∃ a b, s = a ++ strip s ++ b ∧ (∀ c ∈ a, isSpace c = true) ∧
      ∀ c ∈ b, isSpace c = true := by
  obtain ⟨a, ha, haw⟩ := lstrip_decomp s
  obtain ⟨b, hb, hbw⟩ := rstrip_decomp (lstrip s)
  refine ⟨a, b, ?_, haw, hbw⟩
  conv_lhs => rw [ha, hb]
  rw [strip, List.append_assoc]

lemma mem_of_mem_strip {c : Char} {s : Str} (h : c ∈ strip s) : c ∈ s := by
  obtain ⟨a, b, hs, -, -⟩ := strip_decomp s
  rw [hs]
  simp [h]

lemma lstrip_cons_nonspace {c : Char} (s : Str) (h : isSpace c = false) :
    lstrip (c :: s) = c :: s := by
  simp [lstrip, h]

lemma rstrip_append_nonspace {c : Char} (x : Str) (h : isSpace c = false) :
    rstrip (x ++ [c]) = x ++ [c] := by
  induction x with
  | nil => simp [rstrip, h]
  | cons a as ih =>
    have hne : (as ++ [c]).isEmpty = false := by cases as <;> rfl
    simp only [List.cons_append, rstrip, List.append_eq, ih, hne]
    simp

lemma rstrip_append_space {c : Char} (x : Str) (h : isSpace c = true) :
    rstrip (x ++ [c]) = rstrip x := by
  induction x with
  | nil => simp [rstrip, h]
  | cons a as ih =>
    simp only [List.cons_append, rstrip, List.append_eq, ih]

lemma rstrip_last_nonspace (s : Str) :
    rstrip s = [] ∨ ∃ x c, rstrip s = x ++ [c] ∧ isSpace c = false := by
  induction s with
  | nil => exact Or.inl rfl
  | cons c cs ih =>
    by_cases he : (rstrip cs).isEmpty = true
    · by_cases hc : isSpace c = true
      · exact Or.inl (by simp [rstrip, he, hc])
      · rw [Bool.not_eq_true] at hc
        exact Or.inr ⟨[], c, by simp [rstrip, he, hc], hc⟩
    · rw [Bool.not_eq_true] at he
      rcases ih with hnil | ⟨x, d, hx, hd⟩
      · rw [hnil] at he; simp [List.isEmpty] at he
      · refine Or.inr ⟨c :: x, d, ?_, hd⟩
        simp only [rstrip, he]
        rw [hx]
        simp

lemma lstrip_head_nonspace (s : Str) :
    lstrip s = [] ∨ ∃ c t, lstrip s = c :: t ∧ isSpace c = false := by
  induction s with
  | nil => exact Or.inl rfl
  | cons c cs ih =>
    by_cases hc : isSpace c = true
    · simpa [lstrip, hc] using ih
    · rw [Bool.not_eq_true] at hc
      exact Or.inr ⟨c, cs, by simp [lstrip, hc], hc⟩

lemma rstrip_cons_head {c : Char} {cs : Str} (h : rstrip (c :: cs) ≠ []) :
    ∃ t, rstrip (c :: cs) = c :: t := by
  by_cases he : (rstrip cs).isEmpty = true
  · by_cases hc : isSpace c = true
    · exact absurd (by simp [rstrip, he, hc]) h
    · rw [Bool.not_eq_true] at hc
      exact ⟨[], by simp [rstrip, he, hc]⟩
  · rw [Bool.not_eq_true] at he
    exact ⟨rstrip cs, by simp [rstrip, he]⟩

lemma strip_ends {s : Str} (h : strip s ≠ []) :
    (∃ c t, strip s = c :: t ∧ isSpace c = false) ∧
      ∃ x c, strip s = x ++ [c] ∧ isSpace c = false := by
  constructor
  · rcases lstrip_head_nonspace s with hnil | ⟨c, t, hct, hc⟩
    · rw [strip, hnil] at h; exact absurd rfl h
    · rw [strip, hct] at h ⊢
      obtain ⟨t', ht'⟩ := rstrip_cons_head h
      exact ⟨c, t', ht', hc⟩
  · rcases rstrip_last_nonspace (lstrip s) with hnil | ⟨x, c, hx, hc⟩
    · rw [strip, hnil] at h; exact absurd rfl h
    · exact ⟨x, c, by rw [strip, hx], hc⟩

lemma strip_idempotent (s : Str) : strip (strip s) = strip s := by
  by_cases h : strip s = []
  · rw [h]; rfl
  · obtain ⟨⟨c, t, hct, hc⟩, ⟨x, d, hxd, hd⟩⟩ := strip_ends h
    rw [strip, hct, lstrip_cons_nonspace t hc, ← hct, hxd,
      rstrip_append_nonspace x hd]

lemma validate_date_iff (s : Str) :
    validate_date s = true ↔ ∃ pd, dateutil_parse s = some pd ∧ fmtDate pd = s := by
  rw [validate_date]
  cases h : dateutil_parse s with
  | none => simp
  | some pd => simp [h]

lemma dateutil_parse_validB {s : Str} {pd : Date}
    (h : dateutil_parse s = some pd) : validDateB pd = true := by
  rw [dateutil_parse] at h
  split at h
  · split at h
    · dsimp only at h
      split at h
      · injection h with h; subst h; assumption
      · exact absurd h (by simp)
    · exact absurd h (by simp)
  · exact absurd h (by simp)

lemma daysInMonth_le (y m : Nat) : daysInMonth y m ≤ 31 := by
  rw [daysInMonth]
  split_ifs <;> omega

lemma fmtDate_length (pd : Date) : (fmtDate pd).length = 10 := by
  simp [fmtDate, pad4, pad2]

lemma pad2_chars {c : Char} {n : Nat} (h : c ∈ pad2 n) : isDigitC c = true := by
  simp only [pad2, List.mem_cons, List.not_mem_nil, or_false] at h
  rcases h with rfl | rfl <;> exact isDigitC_digitChar _

lemma pad4_chars {c : Char} {n : Nat} (h : c ∈ pad4 n) : isDigitC c = true := by
  simp only [pad4, List.mem_cons, List.not_mem_nil, or_false] at h
  rcases h with rfl | rfl | rfl | rfl <;> exact isDigitC_digitChar _

lemma fmtDate_chars {c : Char} {pd : Date} (h : c ∈ fmtDate pd) :
    isDigitC c = true ∨ c = '-' := by
  rw [fmtDate] at h
  rcases List.mem_append.mp h with h1 | h1
  · exact Or.inl (pad4_chars h1)
  · rcases List.mem_cons.mp h1 with rfl | h2
    · exact Or.inr rfl
    · rcases List.mem_append.mp h2 with h3 | h3
      · exact Or.inl (pad2_chars h3)
      · rcases List.mem_cons.mp h3 with rfl | h4
        · exact Or.inr rfl
        · exact Or.inl (pad2_chars h4)

lemma fmtDate_char_props {c : Char} {pd : Date} (h : c ∈ fmtDate pd) :
    isSpace c = false ∧ c ≠ ' ' ∧ c ≠ '\n' := by
  rcases fmtDate_chars h with hd | rfl
  · exact isDigitC_props c hd
  · decide

lemma validate_date_facts {s : Str} (h : validate_date s = true) :
    s.length = 10 ∧ (∀ c ∈ s, isSpace c = false ∧ c ≠ ' ' ∧ c ≠ '\n') ∧
      ∃ c t, s = c :: t ∧ isSpace c = false := by
  obtain ⟨pd, -, hfmt⟩ := (validate_date_iff s).mp h
  subst hfmt
  refine ⟨fmtDate_length pd, fun c hc => fmtDate_char_props hc, ?_⟩
  refine ⟨digitChar (pd.year / 1000), _, rfl, ?_⟩
  exact isSpace_digitChar _

lemma splitChar_no_sep {sep : Char} {a : Str} (ha : ∀ c ∈ a, c ≠ sep) :
    splitChar sep a = [a] := by
  induction a with
  | nil => rfl
  | cons c cs ih =>
    have hc : (c == sep) = false :=
      beq_eq_false_iff_ne.mpr (ha c (List.mem_cons_self c cs))
    rw [splitChar, hc]
    simp only [Bool.false_eq_true, if_false]
    rw [ih (fun x hx => ha x (List.mem_cons_of_mem c hx))]

lemma splitChar_append {sep : Char} {a : Str} (t : Str) (ha : ∀ c ∈ a, c ≠ sep) :
    splitChar sep (a ++ sep :: t) = a :: splitChar sep t := by
  induction a with
  | nil =>
    simp only [List.nil_append, splitChar, beq_self_eq_true, if_true]
  | cons c cs ih =>
    have hc : (c == sep) = false :=
      beq_eq_false_iff_ne.mpr (ha c (List.mem_cons_self c cs))
    rw [List.cons_append, splitChar, hc]
    simp only [Bool.false_eq_true, if_false]
    rw [ih (fun x hx => ha x (List.mem_cons_of_mem c hx))]

lemma parseNat_pad4 {n : Nat} (h : n ≤ 9999) : parseNat (pad4 n) = n := by
  have h1 : n / 1000 < 10 := by omega
  have h2 : n / 100 % 10 < 10 := by omega
  have h3 : n / 10 % 10 < 10 := by omega
  have h4 : n % 10 < 10 := by omega
  simp only [parseNat, pad4, List.foldl_cons, List.foldl_nil,
    digitVal_digitChar _ h1, digitVal_digitChar _ h2, digitVal_digitChar _ h3,
    digitVal_digitChar _ h4]
  omega

lemma parseNat_pad2 {n : Nat} (h : n ≤ 99) : parseNat (pad2 n) = n := by
  have h1 : n / 10 < 10 := by omega
  have h2 : n % 10 < 10 := by omega
  simp only [parseNat, pad2, List.foldl_cons, List.foldl_nil,
    digitVal_digitChar _ h1, digitVal_digitChar _ h2]
  omega

lemma validDateB_bounds {pd : Date} (h : validDateB pd = true) :
    1 ≤ pd.year ∧ pd.year ≤ 9999 ∧ 1 ≤ pd.month ∧ pd.month ≤ 12 ∧
      1 ≤ pd.day ∧ pd.day ≤ 31 := by
  simp only [validDateB, Bool.and_eq_true, decide_eq_true_eq] at h
  have := daysInMonth_le pd.year pd.month
  omega

lemma pad_ne_dash {c : Char} : ∀ {n : Nat}, c ∈ pad4 n → c ≠ '-' := by
  intro n h
  have := pad4_chars h
  intro rfl_h
  subst rfl_h
  simp [isDigitC] at this

lemma pad2_ne_dash {c : Char} {n : Nat} (h : c ∈ pad2 n) : c ≠ '-' := by
  have := pad2_chars h
  intro rfl_h
  subst rfl_h
  simp [isDigitC] at this

lemma dateutil_parse_fmtDate {pd : Date} (h : validDateB pd = true) :
    dateutil_parse (fmtDate pd) = some pd := by
  obtain ⟨hy1, hy2, hm1, hm2, hd1, hd2⟩ := validDateB_bounds h
  have hsplit : splitChar '-' (fmtDate pd) =
      [pad4 pd.year, pad2 pd.month, pad2 pd.day] := by
    rw [fmtDate, splitChar_append _ (fun c hc => pad_ne_dash hc),
      splitChar_append _ (fun c hc => pad2_ne_dash hc),
      splitChar_no_sep (fun c hc => pad2_ne_dash hc)]
  rw [dateutil_parse, hsplit]
  have hcond : ((pad4 pd.year).length == 4 && (pad4 pd.year).all isDigitC &&
      decide (1 ≤ (pad2 pd.month).length) && decide ((pad2 pd.month).length ≤ 2) &&
      (pad2 pd.month).all isDigitC &&
      decide (1 ≤ (pad2 pd.day).length) && decide ((pad2 pd.day).length ≤ 2) &&
      (pad2 pd.day).all isDigitC) = true := by
    simp only [Bool.and_eq_true, List.all_eq_true]
    refine ⟨⟨⟨⟨⟨⟨⟨by rfl, ?_⟩, by simp [pad2]⟩, by simp [pad2]⟩, ?_⟩,
      by simp [pad2]⟩, by simp [pad2]⟩, ?_⟩
    · exact fun c hc => pad4_chars hc
    · exact fun c hc => pad2_chars hc
    · exact fun c hc => pad2_chars hc
  dsimp only
  rw [if_pos hcond]
  rw [parseNat_pad4 hy2, parseNat_pad2 (by omega), parseNat_pad2 (by omega)]
  rw [if_pos (show validDateB ⟨pd.year, pd.month, pd.day⟩ = true from h)]

lemma validate_fmtDate {pd : Date} (h : validDateB pd = true) :
    validate_date (fmtDate pd) = true := by
  rw [validate_date, dateutil_parse_fmtDate h]
  simp

lemma delim_eq : delim = ' ' :: ['|', ' '] := rfl

lemma strip_eventLine {d desc : Str} (hd : validate_date d = true)
    (hdesc : strip desc = desc) (hne : desc ≠ []) :
    strip (eventLine d desc) = d ++ delim ++ desc := by
  obtain ⟨-, -, c, t, hdshape, hc⟩ := validate_date_facts hd
  have hstripne : strip desc ≠ [] := by rw [hdesc]; exact hne
  obtain ⟨-, x, cl, hxcl, hcl⟩ := strip_ends hstripne
  rw [hdesc] at hxcl
  have hl : lstrip (eventLine d desc) = eventLine d desc := by
    rw [eventLine, hdshape]
    simp only [List.cons_append]
    exact lstrip_cons_nonspace _ hc
  rw [strip, hl, eventLine,
    rstrip_append_space (d ++ delim ++ desc) (by decide : isSpace '\n' = true)]
  rw [hxcl, ← List.append_assoc, rstrip_append_nonspace _ hcl]

lemma startswith_eventLine {d d0 desc : Str} (hd : validate_date d = true)
    (hd0 : validate_date d0 = true) :
    startswith (eventLine d desc) d0 = true ↔ d0 = d := by
  constructor
  · intro h
    have hl : d0.length = d.length := by
      rw [(validate_date_facts hd).1, (validate_date_facts hd0).1]
    rw [startswith, eventLine, List.append_assoc, List.append_assoc] at h
    exact isPre_length_eq hl h
  · rintro rfl
    rw [startswith, eventLine, List.append_assoc, List.append_assoc]
    exact isPre_refl_append _ _

lemma findSplit_delim_line {d desc : Str} (hd : validate_date d = true) :
    findSplit delim (d ++ delim ++ desc) = some (d, desc) := by
  have hch : ∀ c ∈ d, c ≠ ' ' := fun c hc => ((validate_date_facts hd).2.1 c hc).2.1
  rw [List.append_assoc, delim_eq]
  exact findSplit_boundary d desc hch

lemma view_events_cons_good {d d0 desc : Str} {rest : List Str} {ds : List Str}
    (hd : validate_date d = true) (hd0 : validate_date d0 = true)
    (hdesc : strip desc = desc) (hne : desc ≠ [])
    (hrest : view_events rest d0 = .ok ds) :
    view_events (eventLine d desc :: rest) d0 =
      .ok (if d0 = d then desc :: ds else ds) := by
  by_cases heq : d0 = d
  · subst heq
    have hsw : startswith (eventLine d0 desc) d0 = true :=
      (startswith_eventLine hd hd0).mpr rfl
    rw [view_events, hsw]
    simp only [if_true]
    rw [strip_eventLine hd hdesc hne, findSplit_delim_line hd, hrest]
  · have hsw : startswith (eventLine d desc) d0 = false := by
      rw [← Bool.not_eq_true]
      intro hc
      exact heq ((startswith_eventLine hd hd0).mp hc)
    rw [view_events, hsw]
    simp only [Bool.false_eq_true, if_false]
    rw [hrest, if_neg heq]

lemma delete_event_fst (file : List Str) (date desc : Str) :
    (delete_event file date desc).1 =
      file.filter (fun l => !(matchesDelete date desc l)) := by
  induction file with
  | nil => rfl
  | cons l rest ih =>
    simp only [delete_event, List.filter_cons]
    by_cases h : matchesDelete date desc l = true
    · simp [h, ih]
    · rw [Bool.not_eq_true] at h
      simp [h, ih]

lemma delete_event_snd (file : List Str) (date desc : Str) :
    (delete_event file date desc).2 =
      file.any (fun l => matchesDelete date desc l) := by
  induction file with
  | nil => rfl
  | cons l rest ih =>
    simp only [delete_event, List.any_cons]
    by_cases h : matchesDelete date desc l = true
    · simp [h]
    · rw [Bool.not_eq_true] at h
      simp [h, ih]

lemma view_events_ok_inv {file : List Str} {date : Str} {ds : List Str}
    (h : view_events file date = .ok ds) :
    ∀ x ∈ ds, ∃ l ∈ file, startswith l date = true ∧
      ∃ a, findSplit delim (strip l) = some (a, x) := by
  induction file generalizing ds with
  | nil =>
    rw [view_events] at h
    injection h with h
    subst h
    intro x hx
    exact absurd hx (List.not_mem_nil x)
  | cons l rest ih =>
    rw [view_events] at h
    by_cases hsw : startswith l date = true
    · rw [if_pos hsw] at h
      cases hfs : findSplit delim (strip l) with
      | none => rw [hfs] at h; exact absurd h (by simp)
      | some p =>
        rw [hfs] at h
        cases hrest : view_events rest date with
        | error e => rw [hrest] at h; exact absurd h (by simp)
        | ok ds' =>
          rw [hrest] at h
          injection h with h
          subst h
          intro x hx
          rcases List.mem_cons.mp hx with rfl | hx2
          · exact ⟨l, List.mem_cons_self l rest, hsw, p.1, by rw [hfs]⟩
          · obtain ⟨l', hl', hsw', a, hfs'⟩ := ih hrest x hx2
            exact ⟨l', List.mem_cons_of_mem l hl', hsw', a, hfs'⟩
    · rw [if_neg hsw] at h
      intro x hx
      obtain ⟨l', hl', hsw', a, hfs'⟩ := ih h x hx
      exact ⟨l', List.mem_cons_of_mem l hl', hsw', a, hfs'⟩

lemma view_events_error {file : List Str} {date l : Str}
    (hmem : l ∈ file) (hsw : startswith l date = true)
    (hfs : findSplit delim (strip l) = none) :
    view_events file date = .error .valueError := by
  induction file with
  | nil => exact absurd hmem (List.not_mem_nil l)
  | cons l' rest ih =>
    rcases List.mem_cons.mp hmem with rfl | hmem'
    · rw [view_events, if_pos hsw, hfs]
    · by_cases hsw' : startswith l' date = true
      · rw [view_events, if_pos hsw']
        cases hfs' : findSplit delim (strip l') with
        | none => rfl
        | some p => rw [ih hmem']
      · rw [view_events, if_neg hsw']
        exact ih hmem'

lemma findSplit_strip_none {l : Str} (h : contains_sub l delim = false) :
    findSplit delim (strip l) = none := by
  cases hfs : findSplit delim (strip l) with
  | none => rfl
  | some p =>
    have hab : strip l = p.1 ++ delim ++ p.2 :=
      findSplit_some (show findSplit delim (strip l) = some (p.1, p.2) by
        rw [hfs])
    obtain ⟨u, v, hl, -, -⟩ := strip_decomp l
    have hc : contains_sub l delim = true := by
      apply contains_sub_of_decomp (u ++ p.1) (p.2 ++ v)
      rw [hl, hab]
      simp [List.append_assoc]
    rw [hc] at h
    exact absurd h (by simp)

lemma foldl_add_event (appends : List (Str × Str)) (init : List Str) :
    appends.foldl (fun f p => add_event f p.1 p.2) init =
      init ++ appends.map (fun p => eventLine p.1 p.2) := by
  induction appends generalizing init with
  | nil => simp
  | cons p ps ih =>
    rw [List.foldl_cons, ih, List.map_cons]
    simp [add_event]

lemma view_events_map {appends : List (Str × Str)} {d0 : Str}
    (h : ∀ p ∈ appends, validate_date p.1 = true ∧ strip p.2 = p.2 ∧ p.2 ≠ [])
    (hd0 : validate_date d0 = true) :
    view_events (appends.map (fun p => eventLine p.1 p.2)) d0 =
      .ok ((appends.filter (fun p => p.1 == d0)).map (fun p => p.2)) := by
  induction appends with
  | nil => rfl
  | cons p ps ih =>
    have hp := h p (List.mem_cons_self p ps)
    have hrest := ih (fun q hq => h q (List.mem_cons_of_mem p hq))
    rw [List.map_cons,
      view_events_cons_good hp.1 hd0 hp.2.1 hp.2.2 hrest, List.filter_cons]
    by_cases heq : d0 = p.1
    · have hbeq : (p.1 == d0) = true := beq_iff_eq.mpr heq.symm
      simp [hbeq, heq]
    · have hbeq : (p.1 == d0) = false :=
        beq_eq_false_iff_ne.mpr (fun hc => heq hc.symm)
      simp [hbeq, heq]

lemma filter_length_split (file : List Str) (p : Str → Bool) :
    (file.filter p).length + (file.filter (fun l => !(p l))).length =
      file.length := by
  induction file with
  | nil => rfl
  | cons l rest ih =>
    by_cases h : p l = true <;>
      simp [List.filter_cons, h] <;> omega

/-- C1: starting from an empty store, appending validated events and then
querying `view_events` (the `findByDate` scan) with one of the appended
dates yields exactly the descriptions appended under that date, in append
(file) order. -/
theorem append_then_find_roundtrip (appends : List (Str × Str))
    (h : ∀ p ∈ appends, validate_date p.1 = true ∧ strip p.2 = p.2 ∧ p.2 ≠ [])
    (d0 : Str) (hd0 : d0 ∈ appends.map Prod.fst) :
    view_events (appends.foldl (fun f p => add_event f p.1 p.2) []) d0 =
      .ok ((appends.filter (fun p => p.1 == d0)).map (fun p => p.2)) := by
  obtain ⟨p, hp, hpd⟩ := List.mem_map.mp hd0
  have hd0v : validate_date d0 = true := hpd ▸ (h p hp).1
  rw [foldl_add_event, List.nil_append]
  exact view_events_map h hd0v

/-- Witness for C1: the specification's concrete scenario — append
`("2025-05-20", "Team meeting")` then `("2025-05-20", "Dentist")`; the
query returns `["Team meeting", "Dentist"]` in that order. -/
theorem append_then_find_roundtrip_witness :
    view_events
      (([(strLit "2025-05-20", strLit "Team meeting"),
         (strLit "2025-05-20", strLit "Dentist")]).foldl
        (fun f p => add_event f p.1 p.2) [])
      (strLit "2025-05-20") =
      .ok [strLit "Team meeting", strLit "Dentist"] := by
  rw [append_then_find_roundtrip _ (by decide) _ (by decide)]
  rfl

/-- C2: `delete_event` removes exactly the lines that start with the date
and contain the description as a substring anywhere in the line; every
non-matching line remains, in its original relative order, and a
subsequent `view_events` on that date yields no description containing the
deleted description as a substring. -/
theorem delete_matching_correct (file : List Str) (date desc : Str)
    (hdesc : desc ≠ []) :
    (delete_event file date desc).1 =
        file.filter (fun l => !(startswith l date && contains_sub l desc)) ∧
    (∀ l ∈ (delete_event file date desc).1,
        ¬(startswith l date = true ∧ contains_sub l desc = true)) ∧
    (∀ ds, view_events (delete_event file date desc).1 date = .ok ds →
        ∀ x ∈ ds, contains_sub x desc = false) := by
  refine ⟨delete_event_fst file date desc, ?_, ?_⟩
  · intro l hl hcon
    rw [delete_event_fst] at hl
    have hkeep := (List.mem_filter.mp hl).2
    have hmd : matchesDelete date desc l = true := by
      rw [matchesDelete, hcon.1, hcon.2]
      rfl
    rw [hmd] at hkeep
    exact absurd hkeep (by simp)
  · intro ds hds x hx
    obtain ⟨l, hlmem, hsw, a, hfs⟩ := view_events_ok_inv hds x hx
    by_contra hcon
    rw [Bool.not_eq_false] at hcon
    obtain ⟨e, f, hx_decomp⟩ := contains_sub_decomp hcon
    have hstrip : strip l = a ++ delim ++ x := findSplit_some hfs
    obtain ⟨u, v, hl_decomp, -, -⟩ := strip_decomp l
    have hsub : contains_sub l desc = true := by
      apply contains_sub_of_decomp (u ++ a ++ delim ++ e) (f ++ v)
      rw [hl_decomp, hstrip, hx_decomp]
      simp [List.append_assoc]
    rw [delete_event_fst] at hlmem
    have hkeep := (List.mem_filter.mp hlmem).2
    have hmd : matchesDelete date desc l = true := by
      rw [matchesDelete, hsw, hsub]
      rfl
    rw [hmd] at hkeep
    exact absurd hkeep (by simp)

/-- Witness for C2 at a concrete file: deleting `("2025-05-20", "Team
meeting")` keeps exactly the non-matching lines. -/
theorem delete_matching_correct_witness :
    (delete_event [strLit "2025-05-20 | Team meeting\n",
        strLit "2025-05-21 | Dentist\n"] (strLit "2025-05-20")
        (strLit "Team meeting")).1 =
      ([strLit "2025-05-20 | Team meeting\n",
        strLit "2025-05-21 | Dentist\n"]).filter
        (fun l => !(startswith l (strLit "2025-05-20") &&
          contains_sub l (strLit "Team meeting"))) :=
  (delete_matching_correct _ _ _ (by decide)).1

/-- C3: `validate_date s` is true exactly when the (modelled) permissive
parser accepts `s` and reformatting the parsed date as `YYYY-MM-DD`
reproduces `s` byte for byte; in particular every genuinely valid calendar
date written exactly as `YYYY-MM-DD` validates, while the loosely-parsing
`"2025-5-2"` does not. -/
theorem validate_roundtrip :
    (∀ s, validate_date s = true ↔
      ∃ pd, dateutil_parse s = some pd ∧ fmtDate pd = s) ∧
    (∀ pd, validDateB pd = true → validate_date (fmtDate pd) = true) ∧
    validate_date (strLit "2025-5-2") = false :=
  ⟨validate_date_iff, fun _ h => validate_fmtDate h, by decide⟩

/-- Witness for C3 at the concrete valid date 2025-05-20. -/
theorem validate_roundtrip_witness :
    validate_date (fmtDate ⟨2025, 5, 20⟩) = true :=
  validate_roundtrip.2.1 ⟨2025, 5, 20⟩ (by decide)

/-- Counterexample for C4: the delete operation does not return the number
of lines it removed — a file from which one line is removed and a file
from which two lines are removed produce the identical flag `true`, so the
count (1 vs 2) cannot be recovered from what `delete_event` returns. -/
theorem delete_count_not_returned :
    (delete_event [strLit "2025-05-20 | A\n"] (strLit "2025-05-20")
        (strLit "A")).2 =
      (delete_event [strLit "2025-05-20 | A\n", strLit "2025-05-20 | A2\n"]
        (strLit "2025-05-20") (strLit "A")).2 ∧
    ([strLit "2025-05-20 | A\n"] : List Str).length -
        (delete_event [strLit "2025-05-20 | A\n"] (strLit "2025-05-20")
          (strLit "A")).1.length = 1 ∧
    ([strLit "2025-05-20 | A\n", strLit "2025-05-20 | A2\n"] :
        List Str).length -
        (delete_event [strLit "2025-05-20 | A\n", strLit "2025-05-20 | A2\n"]
          (strLit "2025-05-20") (strLit "A")).1.length = 2 := by
  decide

/-- C4 (amended): the delete operation reports only whether at least one
line was removed: its flag is true exactly when the number of removed
lines is non-zero, and the zero case is the non-error "no matching event
found" report. -/
theorem delete_reports_found (file : List Str) (date desc : Str) :
    (delete_event file date desc).2 = true ↔
      file.length - (delete_event file date desc).1.length ≠ 0 := by
  rw [delete_event_snd, delete_event_fst]
  have hsplit := filter_length_split file (fun l => matchesDelete date desc l)
  constructor
  · intro h
    obtain ⟨l, hl, hmd⟩ := List.any_eq_true.mp h
    have hmem : l ∈ file.filter (fun l => matchesDelete date desc l) :=
      List.mem_filter.mpr ⟨hl, hmd⟩
    have hpos : 0 < (file.filter (fun l => matchesDelete date desc l)).length :=
      List.length_pos.mpr (List.ne_nil_of_mem hmem)
    omega
  · intro h
    have hpos : 0 < (file.filter (fun l => matchesDelete date desc l)).length := by
      omega
    obtain ⟨l, hl⟩ := List.exists_mem_of_ne_nil _ (List.length_pos.mp hpos)
    have hm := List.mem_filter.mp hl
    exact List.any_eq_true.mpr ⟨l, hm.1, hm.2⟩

/-- C5: deleting a (date, description) pair that matches no line of the
file reports "no matching event found" (zero lines removed) and leaves the
file byte for byte unchanged. -/
theorem delete_no_match (file : List Str) (date desc : Str)
    (h : ∀ l ∈ file, matchesDelete date desc l = false) :
    delete_event file date desc = (file, false) := by
  induction file with
  | nil => rfl
  | cons l rest ih =>
    have hl := h l (List.mem_cons_self l rest)
    have ih' := ih (fun x hx => h x (List.mem_cons_of_mem l hx))
    simp only [delete_event, ih', hl]
    simp

/-- Witness for C5: deleting an absent pair from a one-line file returns
the file unchanged with the not-found flag. -/
theorem delete_no_match_witness :
    delete_event [strLit "2025-05-20 | Team meeting\n"] (strLit "2025-05-21")
        (strLit "Dentist") =
      ([strLit "2025-05-20 | Team meeting\n"], false) :=
  delete_no_match _ _ _ (by decide)

/-- Counterexample for C6: validation can raise to its caller.  On
`"9999999999-01-01"` the parser reaches the `datetime` construction with a
year token beyond the largest valid C integer and raises `OverflowError`,
which `except ValueError` does not catch, so the exception propagates out
of `validate_date`. -/
theorem validate_overflow_raises :
    validate_date_exc (strLit "9999999999-01-01") = .error .overflowError :=
  rfl

/-- C6 (amended): validation returns `False` rather than raising for every
input whose parse fails with `ValueError` (all unparseable and all
non-round-tripping inputs); it catches only `ValueError`, so on the parser
model's `OverflowError` inputs (a year token exceeding the largest valid C
integer) the exception propagates to the caller. -/
theorem validate_raises_only_overflow :
    (∀ s, overflowInput s = false →
      validate_date_exc s = .ok (validate_date s)) ∧
    (∀ s, overflowInput s = true →
      validate_date_exc s = .error .overflowError) := by
  constructor
  · intro s h
    rw [validate_date_exc, dateutil_parse_exc, if_neg (by simp [h]),
      validate_date]
    cases dateutil_parse s <;> rfl
  · intro s h
    rw [validate_date_exc, dateutil_parse_exc, if_pos h]

/-- Witness for the amended C6: an unparseable date yields `.ok false`
(the caught `ValueError` path), while the overflowing year propagates. -/
theorem validate_raises_only_overflow_witness :
    validate_date_exc (strLit "2025-13-45") = .ok false ∧
      validate_date_exc (strLit "9999999999-12-31") = .error .overflowError :=
  ⟨(validate_raises_only_overflow.1 (strLit "2025-13-45") rfl).trans rfl,
   validate_raises_only_overflow.2 (strLit "9999999999-12-31") rfl⟩

/-- C7: for every integer year and every integer month outside [1, 12],
the calendar display reports the invalid-month range error and produces no
grid output. -/
theorem display_invalid_month (year month : Int)
    (h : month < 1 ∨ 12 < month) :
    display_calendar year month = .monthRangeError := by
  rw [display_calendar]
  split_ifs with hc hy
  · rfl
  all_goals
    exfalso
    simp only [Bool.or_eq_true, decide_eq_true_eq] at hc
    rcases h with h | h <;> omega

/-- Witness for C7: both `renderMonth(2025, 13)` and `renderMonth(2025, 0)`
report the range error. -/
theorem display_invalid_month_witness :
    display_calendar 2025 13 = .monthRangeError ∧
      display_calendar 2025 0 = .monthRangeError :=
  ⟨display_invalid_month 2025 13 (Or.inr (by norm_num)),
   display_invalid_month 2025 0 (Or.inl (by norm_num))⟩

/-- C8: the persistence invariant — every stored line is a
`validate_date`-valid ten-character date token, the `" | "` delimiter, and
a non-empty description — holds of the empty initial file and is preserved
by the controller-level append (validated date, stripped non-empty
newline-free description) and by deletion; the view operation does not
write. -/
theorem invariant_preserved :
    (∀ l ∈ ([] : List Str), goodLine l) ∧
    (∀ file date rawDesc f', (∀ l ∈ file, goodLine l) →
      validate_date date = true → '\n' ∉ rawDesc →
      add_event_ctrl file date rawDesc = .added f' → ∀ l ∈ f', goodLine l) ∧
    (∀ file date desc, (∀ l ∈ file, goodLine l) →
      ∀ l ∈ (delete_event file date desc).1, goodLine l) := by
  refine ⟨?_, ?_, ?_⟩
  · intro l hl
    exact absurd hl (List.not_mem_nil l)
  · intro file date rawDesc f' hinv hd hnl hadd l hl
    rw [add_event_ctrl] at hadd
    by_cases he : (strip rawDesc).isEmpty = true
    · rw [if_pos he] at hadd
      exact absurd hadd (by simp)
    · rw [if_neg he] at hadd
      injection hadd with hadd
      subst hadd
      rw [add_event] at hl
      rcases List.mem_append.mp hl with hl | hl
      · exact hinv l hl
      · rw [List.mem_singleton] at hl
        subst hl
        refine ⟨date, strip rawDesc, hd, (validate_date_facts hd).1, ?_, ?_, rfl⟩
        · intro hc
          rw [hc] at he
          exact he rfl
        · intro hc
          exact hnl (mem_of_mem_strip hc)
  · intro file date desc hinv l hl
    rw [delete_event_fst] at hl
    exact hinv l (List.mem_filter.mp hl).1

/-- Witness for C8: the line stored by a concrete valid append satisfies
the invariant. -/
theorem invariant_preserved_witness :
    goodLine (eventLine (strLit "2025-05-20") (strLit "Dentist")) := by
  have h := invariant_preserved.2.1 [] (strLit "2025-05-20")
      (strLit "Dentist") (add_event [] (strLit "2025-05-20") (strLit "Dentist"))
      (fun l hl => absurd hl (List.not_mem_nil l))
      (by decide) (by decide) rfl
  exact h (eventLine (strLit "2025-05-20") (strLit "Dentist")) (by decide)

/-- C9: if the file contains a line that starts with the queried date but
contains no `" | "` delimiter anywhere, the view operation raises an
uncaught `ValueError` (from unpacking the one-element result of the
split), which propagates out of the operation. -/
theorem view_malformed_line_raises (file : List Str) (date l : Str)
    (hmem : l ∈ file) (hsw : startswith l date = true)
    (hnd : contains_sub l delim = false) :
    view_events file date = .error .valueError :=
  view_events_error hmem hsw (findSplit_strip_none hnd)

/-- Witness for C9: a date-prefixed line without the delimiter makes the
view operation end in `ValueError`. -/
theorem view_malformed_line_raises_witness :
    view_events [strLit "2025-05-20 Team meeting\n"] (strLit "2025-05-20") =
      .error .valueError :=
  view_malformed_line_raises _ _ (strLit "2025-05-20 Team meeting\n")
    (by decide) (by decide) (by decide)

/-- C10: interface inputs are stripped of surrounding whitespace before
validation and storage: a date accepted from raw input is exactly its
stripped, canonical ten-character form; a whitespace-only description
strips to empty and is rejected; and the stored description is the
stripped input, which carries no surrounding whitespace. -/
theorem inputs_stripped :
    (∀ raw s, get_valid_date_step raw = some s →
      s = strip raw ∧ validate_date s = true ∧ s.length = 10) ∧
    (∀ raw, validate_date (strip raw) = true →
      get_valid_date_step raw = some (strip raw)) ∧
    (∀ file date rawDesc, strip rawDesc = [] →
      add_event_ctrl file date rawDesc = .emptyDescription) ∧
    (∀ file date rawDesc, strip rawDesc ≠ [] →
      add_event_ctrl file date rawDesc =
        .added (add_event file date (strip rawDesc)) ∧
      strip (strip rawDesc) = strip rawDesc) := by
  refine ⟨?_, ?_, ?_, ?_⟩
  · intro raw s h
    rw [get_valid_date_step] at h
    by_cases hv : validate_date (strip raw) = true
    · rw [if_pos hv] at h
      injection h with h
      subst h
      exact ⟨rfl, hv, (validate_date_facts hv).1⟩
    · rw [if_neg hv] at h
      exact absurd h (by simp)
  · intro raw hv
    rw [get_valid_date_step]
    rw [if_pos hv]
  · intro file date rawDesc h
    rw [add_event_ctrl]
    rw [if_pos (by rw [h]; rfl)]
  · intro file date rawDesc h
    refine ⟨?_, strip_idempotent rawDesc⟩
    rw [add_event_ctrl]
    rw [if_neg (fun hc => h (List.isEmpty_iff.mp hc))]

/-- Witness for C10: a date with surrounding whitespace is accepted as its
stripped canonical form. -/
theorem inputs_stripped_witness :
    get_valid_date_step (strLit "  2025-05-20 ") =
      some (strip (strLit "  2025-05-20 ")) :=
  inputs_stripped.2.1 (strLit "  2025-05-20 ") (by decide)
